import Mathlib

/-!
Verification of the three-stage text-analysis pipeline
(`repo_fetcher_agent.py`, `structure_analyzer_agent.py`,
`flow_reasoning_agent.py`, `agent_graph.py`).

Python strings are modelled as `List Char` (`PyStr`); machine words are `Nat`
with explicit `% 2^32` / `% 2^64` reductions.  Behaviour of the two external
libraries the code calls into is embedded as well:

* `hashlib.md5` is implemented in full (padding, 64 rounds, little-endian
  digest serialisation), so that `simple_embedding` is modelled bit-for-bit.
* `networkx` is modelled at the level the code uses it: node insertion order
  of `DiGraph.add_nodes_from` / `add_edges_from`, Kahn-style generation-based
  `topological_sort` (succeeding exactly on acyclic inputs, raising
  `NetworkXUnfeasible` on a cycle), `degree_centrality`, and weakly connected
  components.  In the networkx exception hierarchy `NetworkXUnfeasible`
  derives from `NetworkXAlgorithmError`, NOT from `NetworkXError`; the
  `except nx.NetworkXError` clause in `build_execution_flow` therefore does
  not catch the cycle error.  That hierarchy fact is modelled by
  `NxExc.isNetworkXError`.

All recursive functions are structural (accumulator or fuel style), so every
definition evaluates by kernel reduction on concrete inputs.
-/

/-- A Python string, modelled as its list of characters. -/
abbrev PyStr := List Char

/-- The space character (written via its code point). -/
def spaceChar : Char := Char.ofNat 32

/-- Python `str.isspace` / the whitespace class used by `str.split()`,
restricted to the ASCII whitespace characters (space, TAB, LF, VT, FF, CR). -/
def pyIsSpace (c : Char) : Bool :=
  decide (c.toNat = 32 ∨ (9 ≤ c.toNat ∧ c.toNat ≤ 13))

/-- Python `str.lower()` (ASCII case folding, which covers every string the
code manipulates). -/
def pyLower (s : PyStr) : PyStr := s.map Char.toLower

/-- Python's substring test `needle in hay`. -/
def listContains : PyStr → PyStr → Bool
  | needle, [] => needle.isEmpty
  | needle, hay@(_ :: t) => needle.isPrefixOf hay || listContains needle t

/-- Accumulator pass of Python `str.split()` (split on whitespace runs,
dropping empty pieces); `acc` is the word currently being accumulated. -/
def splitWsAux : List Char → List Char → List PyStr
  | [], acc => if acc.isEmpty then [] else [acc]
  | c :: rest, acc =>
    if pyIsSpace c then
      if acc.isEmpty then splitWsAux rest [] else acc :: splitWsAux rest []
    else splitWsAux rest (acc ++ [c])

/-- Python `text.split()` with no arguments, as used by `chunk_text`. -/
def splitWs (s : List Char) : List PyStr := splitWsAux s []

/-- Helper of the join below: a space then the word, for each word. -/
def sepConcat : List PyStr → List Char
  | [] => []
  | v :: vs => spaceChar :: (v ++ sepConcat vs)

/-- Python `" ".join(words)` (a separator before every word but the first). -/
def intercalateSp : List PyStr → List Char
  | [] => []
  | w :: ws => w ++ sepConcat ws

/-- The word-accumulation loop of `RepoFetcherAgent.chunk_text`
(repo_fetcher_agent.py lines 18-35): words are appended to `cur`, the
running size grows by `len(word) + 1`, and a chunk is closed as soon as the
running size reaches `chunk_size`. -/
def chunkAux (csz : Nat) : List PyStr → List PyStr → Nat → List (List Char)
  | [], cur, _ => if cur.isEmpty then [] else [intercalateSp cur]
  | w :: ws, cur, size =>
    let cur2 := cur ++ [w]
    let size2 := size + w.length + 1
    if csz ≤ size2 then intercalateSp cur2 :: chunkAux csz ws [] 0
    else chunkAux csz ws cur2 size2

/-- `RepoFetcherAgent.chunk_text(text, chunk_size)`. -/
def chunk_text (text : List Char) (csz : Nat) : List (List Char) :=
  chunkAux csz (splitWs text) [] 0

/-! ### MD5 (the `hashlib.md5` call made by `simple_embedding`) -/

/-- UTF-8 encoding of one code point, byte list (models Python
`str.encode()` per character). -/
def utf8EncodeChar (n : Nat) : List Nat :=
  if n < 128 then [n]
  else if n < 2048 then [192 + n / 64, 128 + n % 64]
  else if n < 65536 then [224 + n / 4096, 128 + n / 64 % 64, 128 + n % 64]
  else [240 + n / 262144, 128 + n / 4096 % 64, 128 + n / 64 % 64, 128 + n % 64]

/-- Python `text.encode()`: the UTF-8 bytes of a string. -/
def utf8Bytes (s : PyStr) : List Nat := s.flatMap (fun c => utf8EncodeChar c.toNat)

/-- The 64 MD5 round constants (floor(2^32 * abs(sin(i+1)))). -/
def md5K : List Nat :=
  [0xd76aa478, 0xe8c7b756, 0x242070db, 0xc1bdceee,
   0xf57c0faf, 0x4787c62a, 0xa8304613, 0xfd469501,
   0x698098d8, 0x8b44f7af, 0xffff5bb1, 0x895cd7be,
   0x6b901122, 0xfd987193, 0xa679438e, 0x49b40821,
   0xf61e2562, 0xc040b340, 0x265e5a51, 0xe9b6c7aa,
   0xd62f105d, 0x02441453, 0xd8a1e681, 0xe7d3fbc8,
   0x21e1cde6, 0xc33707d6, 0xf4d50d87, 0x455a14ed,
   0xa9e3e905, 0xfcefa3f8, 0x676f02d9, 0x8d2a4c8a,
   0xfffa3942, 0x8771f681, 0x6d9d6122, 0xfde5380c,
   0xa4beea44, 0x4bdecfa9, 0xf6bb4b60, 0xbebfbc70,
   0x289b7ec6, 0xeaa127fa, 0xd4ef3085, 0x04881d05,
   0xd9d4d039, 0xe6db99e5, 0x1fa27cf8, 0xc4ac5665,
   0xf4292244, 0x432aff97, 0xab9423a7, 0xfc93a039,
   0x655b59c3, 0x8f0ccc92, 0xffeff47d, 0x85845dd1,
   0x6fa87e4f, 0xfe2ce6e0, 0xa3014314, 0x4e0811a1,
   0xf7537e82, 0xbd3af235, 0x2ad7d2bb, 0xeb86d391]

/-- The 64 MD5 per-round left-rotation amounts. -/
def md5S : List Nat :=
  [7, 12, 17, 22, 7, 12, 17, 22, 7, 12, 17, 22, 7, 12, 17, 22,
   5, 9, 14, 20, 5, 9, 14, 20, 5, 9, 14, 20, 5, 9, 14, 20,
   4, 11, 16, 23, 4, 11, 16, 23, 4, 11, 16, 23, 4, 11, 16, 23,
   6, 10, 15, 21, 6, 10, 15, 21, 6, 10, 15, 21, 6, 10, 15, 21]

/-- Left rotation of a 32-bit word. -/
def rotl32 (x s : Nat) : Nat :=
  ((x <<< s) % 4294967296) ||| (x >>> (32 - s))

/-- One MD5 round operation on the state `(a, b, c, d)`. -/
def md5Step (M : Nat → Nat) (st : Nat × Nat × Nat × Nat) (i : Nat) :
    Nat × Nat × Nat × Nat :=
  let a := st.1
  let b := st.2.1
  let c := st.2.2.1
  let d := st.2.2.2
  let f :=
    if i < 16 then (b &&& c) ||| ((b ^^^ 4294967295) &&& d)
    else if i < 32 then (d &&& b) ||| ((d ^^^ 4294967295) &&& c)
    else if i < 48 then b ^^^ c ^^^ d
    else c ^^^ (b ||| (d ^^^ 4294967295))
  let g :=
    if i < 16 then i
    else if i < 32 then (5 * i + 1) % 16
    else if i < 48 then (3 * i + 5) % 16
    else (7 * i) % 16
  let f2 := (f + a + md5K.getD i 0 + M g) % 4294967296
  (d, (b + rotl32 f2 (md5S.getD i 0)) % 4294967296, b, c)

/-- The sixteen little-endian 32-bit message words of one 64-byte block. -/
def blockWords (block : List Nat) : List Nat :=
  (List.range 16).map (fun j =>
    block.getD (4 * j) 0 + 256 * block.getD (4 * j + 1) 0 +
    65536 * block.getD (4 * j + 2) 0 + 16777216 * block.getD (4 * j + 3) 0)

/-- Processing of a single 64-byte block (64 rounds plus the final state
addition mod 2^32). -/
def md5Block (st : Nat × Nat × Nat × Nat) (block : List Nat) :
    Nat × Nat × Nat × Nat :=
  let M := fun g => (blockWords block).getD g 0
  let r := (List.range 64).foldl (md5Step M) st
  ((st.1 + r.1) % 4294967296, (st.2.1 + r.2.1) % 4294967296,
   (st.2.2.1 + r.2.2.1) % 4294967296, (st.2.2.2 + r.2.2.2) % 4294967296)

/-- The four little-endian bytes of a 32-bit word. -/
def bytesLE4 (x : Nat) : List Nat :=
  [x % 256, x / 256 % 256, x / 65536 % 256, x / 16777216 % 256]

/-- The eight little-endian bytes of a 64-bit word. -/
def bytesLE8 (x : Nat) : List Nat :=
  [x % 256, x / 256 % 256, x / 65536 % 256, x / 16777216 % 256,
   x / 4294967296 % 256, x / 1099511627776 % 256,
   x / 281474976710656 % 256, x / 72057594037927936 % 256]

/-- MD5 padding: append `0x80`, zero bytes up to 56 mod 64, then the
original bit length as a little-endian 64-bit word. -/
def md5Pad (msg : List Nat) : List Nat :=
  msg ++ 128 :: List.replicate ((120 - (msg.length + 1) % 64) % 64) 0 ++
    bytesLE8 ((8 * msg.length) % 18446744073709551616)

/-- Split a padded message into 64-byte blocks (fuel-structural; the fuel is
always instantiated with the list length, which dominates the block count). -/
def toBlocks : Nat → List Nat → List (List Nat)
  | _, [] => []
  | 0, _ :: _ => []
  | fuel + 1, l@(_ :: _) => l.take 64 :: toBlocks fuel (l.drop 64)

/-- `hashlib.md5(msg).digest()`: the 16-byte MD5 digest of a byte string. -/
def md5 (msg : List Nat) : List Nat :=
  let padded := md5Pad msg
  let st := (toBlocks padded.length padded).foldl md5Block
    (0x67452301, 0xefcdab89, 0x98badcfe, 0x10325476)
  bytesLE4 st.1 ++ bytesLE4 st.2.1 ++ bytesLE4 st.2.2.1 ++ bytesLE4 st.2.2.2

/-- `RepoFetcherAgent.simple_embedding(text)`
(repo_fetcher_agent.py lines 37-41): MD5 the UTF-8 bytes of `text`, keep the
first 128 digest bytes, and map each byte `b` to `b / 255.0` (exact rational
arithmetic; the Python float division is exact for these values' ordering
and bounds). -/
def simple_embedding (text : List Char) : List ℚ :=
  ((md5 (utf8Bytes text)).take 128).map (fun (b : Nat) => (b : ℚ) / 255)

/-! ### The dependency-graph dictionary and the networkx model -/

/-- The `graph_data` dictionary passed between the Structure Analyzer and the
Flow Reasoner: raw `nodes` and `edges` lists plus the (unread downstream)
weakly-connected `components` entry. -/
structure GraphData where
  nodes : List PyStr
  edges : List (PyStr × PyStr)
  components : List (List PyStr)

/-- The networkx exceptions relevant to this code.  In networkx,
`NetworkXUnfeasible` (raised by `topological_sort` on a cyclic graph)
derives from `NetworkXAlgorithmError`, which derives from
`NetworkXException` — it is NOT a subclass of `NetworkXError`. -/
inductive NxExc where
  | networkxError
  | networkxUnfeasible
deriving DecidableEq

/-- Whether `except nx.NetworkXError:` catches the given exception
(`isinstance(e, NetworkXError)` per the networkx class hierarchy). -/
def NxExc.isNetworkXError : NxExc → Bool
  | .networkxError => true
  | .networkxUnfeasible => false

/-- First-occurrence deduplication pass with a `seen` accumulator. -/
def pyDedupAux {α : Type} [DecidableEq α] : List α → List α → List α
  | [], _ => []
  | x :: xs, seen =>
    if x ∈ seen then pyDedupAux xs seen else x :: pyDedupAux xs (seen ++ [x])

/-- First-occurrence deduplication, preserving insertion order — the order in
which a networkx graph stores repeatedly-inserted nodes or edges. -/
def pyDedup {α : Type} [DecidableEq α] (l : List α) : List α := pyDedupAux l []

/-- The node list of the `nx.DiGraph` built via `G.add_nodes_from(nodes)`
followed by `G.add_edges_from(edges)`: the listed nodes in order, then any
edge endpoint not already present, in edge order. -/
def graphNodes (g : GraphData) : List PyStr :=
  pyDedup (g.nodes ++ g.edges.flatMap (fun e => [e.1, e.2]))

/-- The remaining-zero-in-degree nodes of `r` (a node `v` has remaining
in-degree zero when no edge from a still-remaining node enters `v`). -/
def zeroIndeg (es : List (PyStr × PyStr)) (r : List PyStr) : List PyStr :=
  r.filter (fun v => decide (∀ e ∈ es, e.2 = v → e.1 ∉ r))

/-- Kahn's algorithm by generations, as `nx.topological_sort` performs it
(via `topological_generations`): repeatedly emit every remaining node of
zero remaining in-degree; if at some point none exists while nodes remain,
the graph has a cycle and `NetworkXUnfeasible` is raised.  Success, the set
of emitted nodes and the cycle error are exactly networkx's; the order
inside later generations is approximated by node insertion order (no caller
in this code depends on it).  Fuel-structural; the fuel is instantiated with
the node count, which bounds the number of generations. -/
def topoAux (es : List (PyStr × PyStr)) : Nat → List PyStr → Except NxExc (List PyStr)
  | _, [] => Except.ok []
  | 0, _ :: _ => Except.error NxExc.networkxUnfeasible
  | fuel + 1, v :: vs =>
    let r := v :: vs
    let zs := zeroIndeg es r
    if zs = [] then Except.error NxExc.networkxUnfeasible
    else
      match topoAux es fuel (r.filter (fun x => decide (x ∉ zs))) with
      | Except.ok rest => Except.ok (zs ++ rest)
      | Except.error err => Except.error err

/-- `list(nx.topological_sort(G))` for the graph built from `graph_data`. -/
def topological_sort (g : GraphData) : Except NxExc (List PyStr) :=
  let ns := graphNodes g
  topoAux g.edges ns.length ns

/-- The step string emitted for position `i` of the truncated ordering, where
`total` is the length of the FULL topological order (the code compares
`i == len(topological_order) - 1`). -/
def flowStepAt (total : Nat) (i : Nat) (node : PyStr) : List Char :=
  if i = 0 then "Initialize ".data ++ node
  else if i = total - 1 then "Return result from ".data ++ node
  else "Process ".data ++ node

/-- The step-emission loop `for i, node in enumerate(topological_order[:8])`. -/
def flowSteps (topo : List PyStr) : List (List Char) :=
  (topo.take 8).enum.map (fun p => flowStepAt topo.length p.1 p.2)

/-- `FlowReasoningAgent.build_execution_flow(graph_data)`
(flow_reasoning_agent.py lines 18-43).  The `try/except nx.NetworkXError`
around the topological sort is modelled faithfully: an error that is not a
`NetworkXError` instance (in particular `NetworkXUnfeasible`) propagates. -/
def build_execution_flow (g : GraphData) : Except NxExc (List (List Char)) :=
  if g.nodes = [] then
    Except.ok ["System initializes".data, "Processes input".data, "Returns output".data]
  else
    match topological_sort g with
    | Except.ok topo => Except.ok (flowSteps topo)
    | Except.error e =>
      if e.isNetworkXError then Except.ok (flowSteps (g.nodes.take 10))
      else Except.error e

/-- The degree (in + out, over the deduplicated edge set) of a node in the
`nx.DiGraph`. -/
def degreeOf (es : List (PyStr × PyStr)) (nd : PyStr) : Nat :=
  (es.filter (fun e => decide (e.1 = nd))).length +
    (es.filter (fun e => decide (e.2 = nd))).length

/-- `nx.degree_centrality(G)` as an association list in node order:
degree multiplied by `1 / (n - 1)` (with the networkx special case mapping
every node of a graph with at most one node to 1). -/
def degree_centrality (ns : List PyStr) (es : List (PyStr × PyStr)) :
    List (PyStr × ℚ) :=
  if ns.length ≤ 1 then ns.map (fun nd => (nd, 1))
  else
    let s : ℚ := 1 / ((ns.length : ℚ) - 1)
    ns.map (fun nd => (nd, (degreeOf es nd : ℚ) * s))

/-- Stable descending insertion by score: an element passes over every
strictly smaller score and lands after earlier elements of equal score,
matching the stability of Python `sorted(..., reverse=True)`. -/
def insertDescQ (x : PyStr × ℚ) : List (PyStr × ℚ) → List (PyStr × ℚ)
  | [] => [x]
  | y :: ys => if y.2 < x.2 then x :: y :: ys else y :: insertDescQ x ys

/-- `sorted(centrality.items(), key=lambda x: x[1], reverse=True)`. -/
def sortDescQ (l : List (PyStr × ℚ)) : List (PyStr × ℚ) :=
  l.foldl (fun acc x => insertDescQ x acc) []

/-- `FlowReasoningAgent.extract_key_components(graph_data)`
(flow_reasoning_agent.py lines 45-58). -/
def extract_key_components (g : GraphData) : List PyStr :=
  if g.nodes = [] then
    ["core system".data, "input handler".data, "output formatter".data]
  else
    let ns := graphNodes g
    let es := pyDedup g.edges
    (((sortDescQ (degree_centrality ns es)).map (fun p => p.1)).take 5)

/-- The keyword list of `extract_key_functions`. -/
def function_keywords : List PyStr :=
  ["handler".data, "process".data, "create".data, "update".data,
   "delete".data, "fetch".data, "get".data, "post".data, "put".data]

/-- `FlowReasoningAgent.extract_key_functions(graph_data)`
(flow_reasoning_agent.py lines 60-67). -/
def extract_key_functions (g : GraphData) : List PyStr :=
  let nodes := g.nodes
  let functions := nodes.filter
    (fun node => function_keywords.any (fun kw => listContains kw (pyLower node)))
  if functions ≠ [] then functions.take 5
  else if nodes ≠ [] then nodes.take 5
  else ["main".data, "init".data, "run".data]

/-- Acyclicity of a directed edge list: the edges embed into a strict
ranking.  A finite directed graph admits such a ranking exactly when it has
no directed cycle. -/
def EdgesAcyclic (edges : List (PyStr × PyStr)) : Prop :=
  ∃ f : PyStr → Nat, ∀ e ∈ edges, f e.1 < f e.2

/-! ### Structure analyzer (structure_analyzer_agent.py) -/

/-- Regex `\w` on ASCII: letters, digits, underscore. -/
def wordCharB (c : Char) : Bool :=
  decide (((Char.ofNat 97) ≤ c ∧ c ≤ (Char.ofNat 122)) ∨
          ((Char.ofNat 65) ≤ c ∧ c ≤ (Char.ofNat 90)) ∨
          ((Char.ofNat 48) ≤ c ∧ c ≤ (Char.ofNat 57)) ∨ c = Char.ofNat 95)

/-- Attempt the regex `\b{kw}\s+(\w+)` at the current position (the word
boundary is checked by the caller): a case-insensitive keyword match,
followed by one or more whitespace characters, followed by a captured
maximal `\w+`.  Returns the capture and the rest of the input. -/
def tryMatchKw (kw : List Char) (s : List Char) : Option (List Char × List Char) :=
  if (s.take kw.length).length = kw.length ∧ pyLower (s.take kw.length) = kw then
    let rest1 := s.drop kw.length
    let sp := rest1.takeWhile pyIsSpace
    if sp.isEmpty then none
    else
      let rest2 := rest1.dropWhile pyIsSpace
      let w := rest2.takeWhile wordCharB
      if w.isEmpty then none else some (w, rest2.dropWhile wordCharB)
  else none

/-- The scan loop of `re.findall(r'\b{kw}\s+(\w+)', chunk, re.IGNORECASE)`:
left-to-right, non-overlapping, resuming after each match; `prevW` tracks
whether the previous character is a word character (for the `\b`).
Fuel-structural; the fuel is instantiated with the input length. -/
def findKwMatches (kw : List Char) : Nat → Bool → List Char → List (List Char)
  | 0, _, _ => []
  | _ + 1, _, [] => []
  | fuel + 1, prevW, c :: rest =>
    if prevW then findKwMatches kw fuel (wordCharB c) rest
    else
      match tryMatchKw kw (c :: rest) with
      | some (cap, rest2) => cap :: findKwMatches kw fuel true rest2
      | none => findKwMatches kw fuel (wordCharB c) rest

/-- All captures of one declaration pattern in one chunk. -/
def regexCaptures (kw : List Char) (s : List Char) : List (List Char) :=
  findKwMatches kw s.length false s

/-- The declaration keywords of `StructureAnalyzerAgent.extract_entities`
(lowercased; the regexes carry `re.IGNORECASE`). -/
def entityKeywords : List PyStr :=
  ["class".data, "function".data, "def".data, "const".data, "let".data,
   "var".data, "interface".data, "type".data, "component".data, "api".data,
   "endpoint".data, "service".data, "module".data]

/-- `StructureAnalyzerAgent.extract_entities(chunks)`
(structure_analyzer_agent.py lines 17-40).  The Python `set` accumulation is
modelled as a first-occurrence-deduplicated list in discovery order (chunk
by chunk, pattern by pattern); the real set's hash-based iteration order is
implementation-defined and nothing downstream that the claims mention
depends on it. -/
def extract_entities (chunks : List (List Char)) : List PyStr :=
  pyDedup (chunks.flatMap (fun chunk =>
    entityKeywords.flatMap (fun kw => regexCaptures kw chunk)))

/-- The quadratic ordered-pair emission of `find_dependencies`: for every
`i < j` in `found`, emit `(found[i], found[j])` unless equal. -/
def pairsOf : List PyStr → List (PyStr × PyStr)
  | [] => []
  | e :: rest =>
    (rest.filter (fun y => decide (y ≠ e))).map (fun y => (e, y)) ++ pairsOf rest

/-- `StructureAnalyzerAgent.find_dependencies(chunks, entities)`
(structure_analyzer_agent.py lines 42-54): per chunk, `found` is the
entities (in entity-iteration order) whose lowercase form occurs in the
lowercased chunk; all ordered pairs of distinct found entities are emitted. -/
def find_dependencies (chunks : List (List Char)) (entities : List PyStr) :
    List (PyStr × PyStr) :=
  chunks.flatMap (fun chunk =>
    pairsOf (entities.filter (fun e => listContains (pyLower e) (pyLower chunk))))

/-- The undirected neighbours of `v` in the edge list. -/
def undirAdj (es : List (PyStr × PyStr)) (v : PyStr) : List PyStr :=
  (es.filter (fun e => decide (e.1 = v))).map (fun e => e.2) ++
    (es.filter (fun e => decide (e.2 = v))).map (fun e => e.1)

/-- Breadth-first closure used for weakly connected components
(fuel-structural; the fuel is instantiated with the node count). -/
def reachAux (es : List (PyStr × PyStr)) : Nat → List PyStr → List PyStr → List PyStr
  | 0, _, visited => visited
  | fuel + 1, frontier, visited =>
    let nxt := pyDedup ((frontier.flatMap (undirAdj es)).filter
      (fun v => decide (v ∉ visited)))
    if nxt.isEmpty then visited else reachAux es fuel nxt (visited ++ nxt)

/-- `list(nx.weakly_connected_components(G))`: one component (as a list in
discovery order, standing for the Python set) per first-unvisited node in
node order. -/
def weakComponents (ns : List PyStr) (es : List (PyStr × PyStr)) :
    List (List PyStr) :=
  (ns.foldl (fun (acc : List (List PyStr) × List PyStr) v =>
    if v ∈ acc.2 then acc
    else
      let comp := reachAux es ns.length [v] [v]
      (acc.1 ++ [comp], acc.2 ++ comp)) ([], [])).1

/-- The edge list `[(u, v) for u, v in G.edges()]` of the analyzer's graph:
adjacency iteration, grouped by source node in insertion order, targets in
first-insertion order. -/
def graphEdges (ns : List PyStr) (deps : List (PyStr × PyStr)) :
    List (PyStr × PyStr) :=
  ns.flatMap (fun u =>
    (pyDedup ((deps.filter (fun d => decide (d.1 = u))).map (fun d => d.2))).map
      (fun v => (u, v)))

/-- The `graph_data` dictionary built at the end of
`StructureAnalyzerAgent.process` (structure_analyzer_agent.py lines 56-74):
a `DiGraph` gets one node per entity and one edge per dependency pair (edge
insertion adds missing endpoint nodes), and the dict lists its nodes, its
deduplicated edges, and its weakly connected components. -/
def structure_graph_data (entities : List PyStr) (deps : List (PyStr × PyStr)) :
    GraphData :=
  let ns := pyDedup (entities ++ deps.flatMap (fun d => [d.1, d.2]))
  let es := graphEdges ns deps
  ⟨ns, es, weakComponents ns es⟩

/-- The whole Structure Analyzer stage. -/
def structure_process (chunks : List (List Char)) : GraphData :=
  structure_graph_data (extract_entities chunks)
    (find_dependencies chunks (extract_entities chunks))

/-! ### Orchestrator (agent_graph.py) -/

/-- The output dictionary of `RepoFetcherAgent.process`. -/
structure ChunkResult where
  chunks : List (List Char)
  embeddings : List (List ℚ)

/-- `RepoFetcherAgent.process(text)`: chunk with the default
`chunk_size=1000`, then fingerprint each chunk. -/
def repo_process (text : List Char) : ChunkResult :=
  ⟨chunk_text text 1000, (chunk_text text 1000).map simple_embedding⟩

/-- The final Summary Result dictionary of `FlowReasoningAgent.process`. -/
structure SummaryResult where
  execution_flow : List (List Char)
  key_components : List PyStr
  key_functions : List PyStr

/-- `FlowReasoningAgent.process(dependency_graph)`: the only stage operation
that can raise (through the uncaught `NetworkXUnfeasible` inside
`build_execution_flow`). -/
def flow_process (g : GraphData) : Except NxExc SummaryResult :=
  match build_execution_flow g with
  | Except.ok fl => Except.ok ⟨fl, extract_key_components g, extract_key_functions g⟩
  | Except.error e => Except.error e

/-- The body of `execute_pipeline` inside `run_agent_graph`
(agent_graph.py lines 12-19): the three stages in strict sequence. -/
def execute_pipeline (text : List Char) : Except NxExc SummaryResult :=
  flow_process (structure_process (repo_process text).chunks)

/-- The fixed generic Summary Result of the orchestrator's `except` branch
(agent_graph.py lines 25-36). -/
def genericSummary : SummaryResult :=
  ⟨["System initializes core components".data,
    "Input handler receives and validates data".data,
    "Main processor transforms the data".data,
    "Output formatter prepares response".data,
    "System returns formatted result".data],
   ["core system".data, "input handler".data, "output formatter".data],
   ["main".data, "init".data, "process".data]⟩

/-- The `try/except Exception` boundary of `run_agent_graph`: any error from
the pipeline is replaced by the fixed generic summary. -/
def run_agent_graph_handle : Except NxExc SummaryResult → SummaryResult
  | Except.ok r => r
  | Except.error _ => genericSummary

/-- `run_agent_graph(text)` (agent_graph.py lines 8-36). -/
def run_agent_graph (text : List Char) : SummaryResult :=
  run_agent_graph_handle (execute_pipeline text)

/-! ## Theorems -/

/-- Every byte serialised little-endian is below 256. -/
theorem bytesLE4_lt (x b : Nat) (hb : b ∈ bytesLE4 x) : b < 256 := by
  simp [bytesLE4] at hb
  rcases hb with rfl | rfl | rfl | rfl <;> omega

/-- The MD5 digest always has exactly 16 bytes. -/
theorem md5_length (m : List Nat) : (md5 m).length = 16 := by
  simp [md5, bytesLE4]

/-- Every MD5 digest byte is below 256. -/
theorem md5_mem_lt (m : List Nat) (b : Nat) (hb : b ∈ md5 m) : b < 256 := by
  simp only [md5, List.mem_append] at hb
  rcases hb with ((h | h) | h) | h <;> exact bytesLE4_lt _ _ h

/-- Claim C1 (amended): for every input text, `simple_embedding` returns a
sequence of exactly 16 values (the full 16-byte MD5 digest — the `[:128]`
truncation never pads), each of which lies in the closed interval [0, 1]. -/
theorem simple_embedding_sixteen_unit_interval (text : List Char) :
    (simple_embedding text).length = 16 ∧
    ∀ q ∈ simple_embedding text, 0 ≤ q ∧ q ≤ 1 := by
  constructor
  · rw [show simple_embedding text =
        ((md5 (utf8Bytes text)).take 128).map (fun (b : Nat) => (b : ℚ) / 255) from rfl,
      List.length_map, List.length_take, md5_length]
    decide
  · intro q hq
    rw [show simple_embedding text =
        ((md5 (utf8Bytes text)).take 128).map (fun (b : Nat) => (b : ℚ) / 255) from rfl] at hq
    obtain ⟨b, hb, rfl⟩ := List.mem_map.mp hq
    have hb2 : b < 256 := md5_mem_lt _ b (List.mem_of_mem_take hb)
    constructor
    · apply div_nonneg _ (by norm_num)
      exact_mod_cast Nat.zero_le b
    · rw [div_le_one (by norm_num)]
      exact_mod_cast Nat.le_of_lt_succ hb2

/-- Claim C1 counterexample: on the empty string the output of
`simple_embedding` does not have 128 entries (it has 16). -/
theorem simple_embedding_length_ne_128 :
    (simple_embedding []).length ≠ 128 := by
  have h : (simple_embedding ([] : List Char)).length = 16 := by
    rw [show simple_embedding ([] : List Char) =
        ((md5 (utf8Bytes [])).take 128).map (fun (b : Nat) => (b : ℚ) / 255) from rfl,
      List.length_map, List.length_take, md5_length]
    decide
  omega

set_option maxRecDepth 16384 in
/-- Claim C1 witness: the theorem applied to the empty text; its first
digest byte is 212, giving the member 212/255 of the output. -/
theorem simple_embedding_sixteen_unit_interval_witness :
    (simple_embedding []).length = 16 ∧
    (0 ≤ (212 : ℚ) / 255 ∧ (212 : ℚ) / 255 ≤ 1) :=
  ⟨(simple_embedding_sixteen_unit_interval []).1,
    (simple_embedding_sixteen_unit_interval []).2 ((212 : ℚ) / 255) (by
      have hmd5 : md5 (utf8Bytes []) =
          [212, 29, 140, 217, 143, 0, 178, 4, 233, 128, 9, 152, 236, 248, 66, 126] := by
        decide
      rw [show simple_embedding [] =
          ((md5 (utf8Bytes [])).take 128).map (fun (b : Nat) => (b : ℚ) / 255) from rfl,
        hmd5]
      exact List.mem_map.mpr ⟨212, by decide, by norm_num⟩)⟩

/-- Claim C3 counterexample: on the node set
{getUser, setConfig, Widget}, `extract_key_functions` does NOT return the
one-element list ["getUser"]. -/
theorem extract_key_functions_not_getUser_only :
    extract_key_functions ⟨["getUser".data, "setConfig".data, "Widget".data], [], []⟩ ≠
      ["getUser".data] := by decide

/-- Claim C3 (amended): on the node list [getUser, setConfig, Widget],
`extract_key_functions` returns ["getUser", "Widget"]: the lowercase form
"widget" contains the keyword "get" as a substring, so Widget matches too;
setConfig matches no keyword and is excluded. -/
theorem extract_key_functions_getUser_widget :
    extract_key_functions ⟨["getUser".data, "setConfig".data, "Widget".data], [], []⟩ =
      ["getUser".data, "Widget".data] := by decide

/-- Claim C2 (code bug): on the 2-cycle a → b → a, the topological sort
raises `NetworkXUnfeasible`, which the local `except nx.NetworkXError`
clause does not match, so `build_execution_flow` propagates the error to its
caller instead of falling back to the first 10 nodes. -/
theorem build_execution_flow_cycle_error :
    build_execution_flow ⟨["a".data, "b".data],
      [("a".data, "b".data), ("b".data, "a".data)], []⟩ =
      Except.error NxExc.networkxUnfeasible := rfl

/-- Claim C4: whenever the pipeline computation inside `run_agent_graph`
ends in an error — which is how any error raised by any of the three stages
surfaces at the orchestration boundary — the `except` branch returns (never
raises) the fixed generic Summary Result with the documented component list,
function list and five-step narrative. -/
theorem run_agent_graph_generic_on_error :
    ∀ e : NxExc,
      run_agent_graph_handle (Except.error e) = genericSummary ∧
      genericSummary.key_components =
        ["core system".data, "input handler".data, "output formatter".data] ∧
      genericSummary.key_functions = ["main".data, "init".data, "process".data] ∧
      genericSummary.execution_flow =
        ["System initializes core components".data,
         "Input handler receives and validates data".data,
         "Main processor transforms the data".data,
         "Output formatter prepares response".data,
         "System returns formatted result".data] ∧
      (∀ text, run_agent_graph text = run_agent_graph_handle (execute_pipeline text)) :=
  fun _ => ⟨rfl, rfl, rfl, rfl, fun _ => rfl⟩

/-- The space character is whitespace. -/
theorem pyIsSpace_spaceChar : pyIsSpace spaceChar = true := by decide

/-- Every word produced by the split pass is non-empty and whitespace-free
(provided the accumulated word already is whitespace-free). -/
theorem splitWsAux_goodWord :
    ∀ (s acc : List Char), (∀ c ∈ acc, pyIsSpace c = false) →
      ∀ w ∈ splitWsAux s acc, w ≠ [] ∧ ∀ c ∈ w, pyIsSpace c = false := by
  intro s
  induction s with
  | nil =>
    intro acc hacc w hw
    simp only [splitWsAux] at hw
    by_cases h : acc.isEmpty
    · rw [if_pos h] at hw
      exact absurd hw (List.not_mem_nil w)
    · rw [if_neg h] at hw
      rw [List.mem_singleton] at hw
      subst hw
      refine ⟨?_, hacc⟩
      intro hnil
      rw [hnil] at h
      exact h rfl
  | cons c rest ih =>
    intro acc hacc w hw
    simp only [splitWsAux] at hw
    by_cases hsp : pyIsSpace c
    · rw [if_pos hsp] at hw
      by_cases h : acc.isEmpty
      · rw [if_pos h] at hw
        exact ih [] (by simp) w hw
      · rw [if_neg h] at hw
        rcases List.mem_cons.mp hw with rfl | hw2
        · refine ⟨?_, hacc⟩
          intro hnil
          rw [hnil] at h
          exact h rfl
        · exact ih [] (by simp) w hw2
    · rw [if_neg hsp] at hw
      refine ih (acc ++ [c]) ?_ w hw
      intro x hx
      rcases List.mem_append.mp hx with hx | hx
      · exact hacc x hx
      · rw [List.mem_singleton] at hx
        subst hx
        exact Bool.eq_false_iff.mpr hsp

/-- Every word of `splitWs` is non-empty and whitespace-free. -/
theorem splitWs_goodWord (s : List Char) :
    ∀ w ∈ splitWs s, w ≠ [] ∧ ∀ c ∈ w, pyIsSpace c = false :=
  splitWsAux_goodWord s [] (by simp)

/-- Joining a single word adds no separator. -/
theorem intercalateSp_single (w : PyStr) : intercalateSp [w] = w :=
  List.append_nil w

/-- Joining two or more words starts with the first word and a space. -/
theorem intercalateSp_cons2 (w w2 : PyStr) (ws : List PyStr) :
    intercalateSp (w :: w2 :: ws) = w ++ spaceChar :: intercalateSp (w2 :: ws) := rfl

/-- Splitting a whitespace-free run terminated by end of input yields the
single accumulated word. -/
theorem splitWsAux_run_end :
    ∀ (u acc : List Char), (∀ c ∈ u, pyIsSpace c = false) → acc ++ u ≠ [] →
      splitWsAux u acc = [acc ++ u] := by
  intro u
  induction u with
  | nil =>
    intro acc _ hne
    rw [List.append_nil] at hne ⊢
    simp only [splitWsAux]
    rw [if_neg (by simpa [List.isEmpty_iff] using hne)]
  | cons c u' ih =>
    intro acc hu hne
    have hc : pyIsSpace c = false := hu c (List.mem_cons_self c u')
    simp only [splitWsAux]
    rw [if_neg (by simp [hc])]
    rw [ih (acc ++ [c]) (fun x hx => hu x (List.mem_cons_of_mem c hx)) (by simp)]
    simp

/-- Splitting a whitespace-free run followed by a space emits the run as one
word and continues after the space with an empty accumulator. -/
theorem splitWsAux_run_space (t : List Char) :
    ∀ (u acc : List Char), (∀ c ∈ u, pyIsSpace c = false) → acc ++ u ≠ [] →
      splitWsAux (u ++ spaceChar :: t) acc = (acc ++ u) :: splitWsAux t [] := by
  intro u
  induction u with
  | nil =>
    intro acc _ hne
    rw [List.append_nil] at hne
    simp only [List.nil_append, splitWsAux, pyIsSpace_spaceChar, if_true]
    rw [if_neg (by simpa [List.isEmpty_iff] using hne)]
    simp
  | cons c u' ih =>
    intro acc hu hne
    have hc : pyIsSpace c = false := hu c (List.mem_cons_self c u')
    simp only [List.cons_append, splitWsAux, List.append_eq]
    rw [if_neg (by simp [hc])]
    rw [ih (acc ++ [c]) (fun x hx => hu x (List.mem_cons_of_mem c hx)) (by simp)]
    simp

/-- Joining good words with single spaces and re-splitting recovers the
words: the `" ".join` / `str.split` round trip. -/
theorem splitWs_intercalateSp :
    ∀ ws : List PyStr, (∀ w ∈ ws, w ≠ [] ∧ ∀ c ∈ w, pyIsSpace c = false) →
      splitWs (intercalateSp ws) = ws := by
  intro ws
  induction ws with
  | nil => intro _; rfl
  | cons w ws ih =>
    intro hws
    cases ws with
    | nil =>
      obtain ⟨hne, hgood⟩ := hws w (List.mem_cons_self w [])
      show splitWsAux (intercalateSp [w]) [] = [w]
      rw [intercalateSp_single]
      rw [splitWsAux_run_end w [] hgood (by simpa using hne)]
      simp
    | cons w2 ws' =>
      obtain ⟨hne, hgood⟩ := hws w (List.mem_cons_self w (w2 :: ws'))
      show splitWsAux (intercalateSp (w :: w2 :: ws')) [] = w :: w2 :: ws'
      rw [intercalateSp_cons2]
      rw [splitWsAux_run_space (intercalateSp (w2 :: ws')) w [] hgood (by simpa using hne)]
      rw [show splitWsAux (intercalateSp (w2 :: ws')) [] =
          splitWs (intercalateSp (w2 :: ws')) from rfl]
      rw [ih (fun x hx => hws x (List.mem_cons_of_mem w hx))]
      simp

/-- Re-splitting the chunks produced by the accumulation loop recovers the
pending words followed by the remaining words. -/
theorem chunkAux_flatMap (csz : Nat) :
    ∀ (ws cur : List PyStr) (size : Nat),
      (∀ w ∈ ws, w ≠ [] ∧ ∀ c ∈ w, pyIsSpace c = false) →
      (∀ w ∈ cur, w ≠ [] ∧ ∀ c ∈ w, pyIsSpace c = false) →
      (chunkAux csz ws cur size).flatMap splitWs = cur ++ ws := by
  intro ws
  induction ws with
  | nil =>
    intro cur size _ hcur
    simp only [chunkAux]
    by_cases h : cur.isEmpty
    · rw [if_pos h]
      rw [List.isEmpty_iff.mp h]
      rfl
    · rw [if_neg h]
      simp only [List.flatMap_cons, List.flatMap_nil, List.append_nil]
      rw [splitWs_intercalateSp cur hcur]
  | cons w ws ih =>
    intro cur size hws hcur
    have hw := hws w (List.mem_cons_self w ws)
    have hws' : ∀ x ∈ ws, x ≠ [] ∧ ∀ c ∈ x, pyIsSpace c = false :=
      fun x hx => hws x (List.mem_cons_of_mem w hx)
    have hcur2 : ∀ x ∈ cur ++ [w], x ≠ [] ∧ ∀ c ∈ x, pyIsSpace c = false := by
      intro x hx
      rcases List.mem_append.mp hx with hx | hx
      · exact hcur x hx
      · rw [List.mem_singleton] at hx
        subst hx
        exact hw
    simp only [chunkAux]
    by_cases h : csz ≤ size + w.length + 1
    · rw [if_pos h]
      simp only [List.flatMap_cons]
      rw [splitWs_intercalateSp (cur ++ [w]) hcur2, ih [] 0 hws' (by simp)]
      simp
    · rw [if_neg h]
      rw [ih (cur ++ [w]) (size + w.length + 1) hws' hcur2]
      simp

/-- Claim C5: for every input text and every chunk size greater than zero,
splitting each chunk returned by `chunk_text` on whitespace and
concatenating the resulting word lists in chunk order yields exactly the
whitespace-split word sequence of the original input. -/
theorem chunk_text_word_roundtrip (text : List Char) (csz : Nat) (_hpos : 0 < csz) :
    (chunk_text text csz).flatMap splitWs = splitWs text := by
  unfold chunk_text
  rw [chunkAux_flatMap csz (splitWs text) [] 0 (splitWs_goodWord text) (by simp)]
  rfl

/-- Claim C5 witness: the round trip at the concrete input "ab cd" with
chunk size 3. -/
theorem chunk_text_word_roundtrip_witness :
    (chunk_text ("ab cd".data) 3).flatMap splitWs = splitWs ("ab cd".data) :=
  chunk_text_word_roundtrip ("ab cd".data) 3 (by decide)

/-- Every chunk the accumulation loop emits still splits into at least one
word. -/
theorem chunkAux_chunk_split_ne (csz : Nat) :
    ∀ (ws cur : List PyStr) (size : Nat),
      (∀ w ∈ ws, w ≠ [] ∧ ∀ c ∈ w, pyIsSpace c = false) →
      (∀ w ∈ cur, w ≠ [] ∧ ∀ c ∈ w, pyIsSpace c = false) →
      ∀ ch ∈ chunkAux csz ws cur size, splitWs ch ≠ [] := by
  intro ws
  induction ws with
  | nil =>
    intro cur size _ hcur ch hch
    simp only [chunkAux] at hch
    by_cases h : cur.isEmpty
    · rw [if_pos h] at hch
      exact absurd hch (List.not_mem_nil ch)
    · rw [if_neg h] at hch
      rw [List.mem_singleton] at hch
      subst hch
      rw [splitWs_intercalateSp cur hcur]
      simpa [List.isEmpty_iff] using h
  | cons w ws ih =>
    intro cur size hws hcur ch hch
    have hw := hws w (List.mem_cons_self w ws)
    have hws' : ∀ x ∈ ws, x ≠ [] ∧ ∀ c ∈ x, pyIsSpace c = false :=
      fun x hx => hws x (List.mem_cons_of_mem w hx)
    have hcur2 : ∀ x ∈ cur ++ [w], x ≠ [] ∧ ∀ c ∈ x, pyIsSpace c = false := by
      intro x hx
      rcases List.mem_append.mp hx with hx | hx
      · exact hcur x hx
      · rw [List.mem_singleton] at hx
        subst hx
        exact hw
    simp only [chunkAux] at hch
    by_cases h : csz ≤ size + w.length + 1
    · rw [if_pos h] at hch
      rcases List.mem_cons.mp hch with rfl | hch2
      · rw [splitWs_intercalateSp (cur ++ [w]) hcur2]
        simp
      · exact ih [] 0 hws' (by simp) ch hch2
    · rw [if_neg h] at hch
      exact ih (cur ++ [w]) (size + w.length + 1) hws' hcur2 ch hch

/-- Claim C8: `chunk_text` on the empty string returns the empty chunk
sequence; on a single word longer than the chunk size it returns exactly
one chunk whose text is that word; and no returned chunk splits into zero
words. -/
theorem chunk_text_edge_cases :
    (∀ csz, chunk_text [] csz = []) ∧
    (∀ (text : List Char) (csz : Nat), text ≠ [] →
      (∀ c ∈ text, pyIsSpace c = false) → csz < text.length →
      chunk_text text csz = [text]) ∧
    (∀ (text : List Char) (csz : Nat) (ch : List Char),
      ch ∈ chunk_text text csz → splitWs ch ≠ []) := by
  refine ⟨fun csz => rfl, ?_, ?_⟩
  · intro text csz hne hgood hlen
    unfold chunk_text
    rw [show splitWs text = splitWsAux text [] from rfl]
    rw [splitWsAux_run_end text [] hgood (by simpa using hne)]
    rw [List.nil_append]
    simp only [chunkAux]
    rw [if_pos (by omega)]
    rw [show ([] : List PyStr) ++ [text] = [text] from rfl, intercalateSp_single]
    rfl
  · intro text csz ch hch
    exact chunkAux_chunk_split_ne csz (splitWs text) [] 0
      (splitWs_goodWord text) (by simp) ch hch

/-- Claim C8 witness: the single-word case at the concrete input "hello"
with chunk size 3. -/
theorem chunk_text_edge_cases_witness :
    chunk_text ("hello".data) 3 = ["hello".data] :=
  chunk_text_edge_cases.2.1 ("hello".data) 3 (by decide) (by decide) (by decide)

/-- Membership after the dedup pass: kept iff present and not already seen. -/
theorem mem_pyDedupAux {α : Type} [DecidableEq α] :
    ∀ (l seen : List α) (a : α), a ∈ pyDedupAux l seen ↔ a ∈ l ∧ a ∉ seen := by
  intro l
  induction l with
  | nil => intro seen a; simp [pyDedupAux]
  | cons x xs ih =>
    intro seen a
    simp only [pyDedupAux]
    by_cases hx : x ∈ seen
    · rw [if_pos hx, ih]
      constructor
      · rintro ⟨ha, hs⟩
        exact ⟨List.mem_cons_of_mem x ha, hs⟩
      · rintro ⟨ha, hs⟩
        rcases List.mem_cons.mp ha with rfl | ha2
        · exact absurd hx hs
        · exact ⟨ha2, hs⟩
    · rw [if_neg hx]
      rw [List.mem_cons, ih]
      constructor
      · rintro (rfl | ⟨ha, hs⟩)
        · exact ⟨List.mem_cons_self _ _, hx⟩
        · refine ⟨List.mem_cons_of_mem x ha, fun hsn => hs (by simp [hsn])⟩
      · rintro ⟨ha, hs⟩
        by_cases hax : a = x
        · exact Or.inl hax
        · right
          rcases List.mem_cons.mp ha with rfl | ha2
          · exact absurd rfl hax
          · refine ⟨ha2, ?_⟩
            simp only [List.mem_append, List.mem_singleton]
            rintro (h1 | h1)
            · exact hs h1
            · exact hax h1

/-- `pyDedup` preserves membership. -/
theorem mem_pyDedup {α : Type} [DecidableEq α] (l : List α) (a : α) :
    a ∈ pyDedup l ↔ a ∈ l := by
  rw [pyDedup, mem_pyDedupAux]
  simp

/-- If everything is already seen, the dedup pass produces nothing. -/
theorem pyDedupAux_all_seen {α : Type} [DecidableEq α] :
    ∀ (ys seen : List α), (∀ y ∈ ys, y ∈ seen) → pyDedupAux ys seen = [] := by
  intro ys
  induction ys with
  | nil => intro seen _; rfl
  | cons y ys ih =>
    intro seen h
    simp only [pyDedupAux]
    rw [if_pos (h y (List.mem_cons_self y ys))]
    exact ih seen (fun z hz => h z (List.mem_cons_of_mem y hz))

/-- Deduplicating a duplicate-free unseen list followed by redundant
elements returns the list unchanged. -/
theorem pyDedupAux_append {α : Type} [DecidableEq α] :
    ∀ (xs seen ys : List α), xs.Nodup → (∀ x ∈ xs, x ∉ seen) →
      (∀ y ∈ ys, y ∈ seen ∨ y ∈ xs) → pyDedupAux (xs ++ ys) seen = xs := by
  intro xs
  induction xs with
  | nil =>
    intro seen ys _ _ hys
    simp only [List.nil_append]
    refine pyDedupAux_all_seen ys seen (fun y hy => ?_)
    rcases hys y hy with h | h
    · exact h
    · exact absurd h (List.not_mem_nil y)
  | cons x xs ih =>
    intro seen ys hnd hseen hys
    simp only [List.cons_append, pyDedupAux]
    rw [if_neg (hseen x (List.mem_cons_self x xs))]
    congr 1
    apply ih (seen ++ [x]) ys
    · exact (List.nodup_cons.mp hnd).2
    · intro z hz
      simp only [List.mem_append, List.mem_singleton]
      rintro (h1 | rfl)
      · exact hseen z (List.mem_cons_of_mem x hz) h1
      · exact (List.nodup_cons.mp hnd).1 hz
    · intro y hy
      rcases hys y hy with h | h
      · left; simp [h]
      · rcases List.mem_cons.mp h with rfl | h2
        · left; simp
        · right; exact h2

/-- When the listed nodes are duplicate-free and already contain every edge
endpoint, the `DiGraph` node list equals the listed nodes. -/
theorem graphNodes_eq_nodes (g : GraphData) (hnd : g.nodes.Nodup)
    (hep : ∀ e ∈ g.edges, e.1 ∈ g.nodes ∧ e.2 ∈ g.nodes) :
    graphNodes g = g.nodes := by
  rw [graphNodes, pyDedup]
  apply pyDedupAux_append g.nodes [] _ hnd (fun x _ => List.not_mem_nil x)
  intro y hy
  right
  rw [List.mem_flatMap] at hy
  obtain ⟨e, he, hy2⟩ := hy
  rcases List.mem_cons.mp hy2 with rfl | hy3
  · exact (hep e he).1
  · rw [List.mem_singleton] at hy3
    subst hy3
    exact (hep e he).2

/-- A non-empty list has an element of minimal key. -/
theorem list_exists_min_key (f : PyStr → Nat) :
    ∀ l : List PyStr, l ≠ [] → ∃ x ∈ l, ∀ y ∈ l, f x ≤ f y := by
  intro l
  induction l with
  | nil => intro h; exact absurd rfl h
  | cons x xs ih =>
    intro _
    cases xs with
    | nil =>
      refine ⟨x, List.mem_cons_self x [], fun y hy => ?_⟩
      rcases List.mem_cons.mp hy with rfl | hy2
      · exact le_refl _
      · exact absurd hy2 (List.not_mem_nil y)
    | cons z zs =>
      obtain ⟨m, hm, hmin⟩ := ih (List.cons_ne_nil z zs)
      by_cases hc : f x ≤ f m
      · refine ⟨x, List.mem_cons_self x (z :: zs), fun y hy => ?_⟩
        rcases List.mem_cons.mp hy with rfl | hy2
        · exact le_refl _
        · exact le_trans hc (hmin y hy2)
      · refine ⟨m, List.mem_cons_of_mem x hm, fun y hy => ?_⟩
        rcases List.mem_cons.mp hy with rfl | hy2
        · exact le_of_lt (lt_of_not_le hc)
        · exact hmin y hy2

/-- On an acyclic edge list, a non-empty remaining node list always has a
node of zero remaining in-degree (the node of minimal rank qualifies). -/
theorem zeroIndeg_ne_nil (es : List (PyStr × PyStr)) (f : PyStr → Nat)
    (hf : ∀ e ∈ es, f e.1 < f e.2) (r : List PyStr) (hr : r ≠ []) :
    zeroIndeg es r ≠ [] := by
  obtain ⟨x, hx, hmin⟩ := list_exists_min_key f r hr
  refine List.ne_nil_of_mem (a := x) ?_
  rw [zeroIndeg, List.mem_filter]
  refine ⟨hx, ?_⟩
  simp only [decide_eq_true_eq]
  intro e he h2 h1
  have hlt := hf e he
  rw [h2] at hlt
  exact absurd (hmin e.1 h1) (by omega)

/-- Filtering out a present element shortens the list. -/
theorem length_filter_lt {α : Type} (p : α → Bool) :
    ∀ (l : List α) (x : α), x ∈ l → p x = false → (l.filter p).length < l.length := by
  intro l
  induction l with
  | nil => intro x hx _; exact absurd hx (List.not_mem_nil x)
  | cons y ys ih =>
    intro x hx hpx
    rcases List.mem_cons.mp hx with rfl | hx2
    · have h := List.length_filter_le p ys
      simp only [List.filter_cons, hpx, List.length_cons]
      simp only [Bool.false_eq_true, if_false]
      omega
    · cases hy : p y
      · have h := ih x hx2 hpx
        simp only [List.filter_cons, hy, List.length_cons]
        simp only [Bool.false_eq_true, if_false]
        omega
      · have h := ih x hx2 hpx
        simp only [List.filter_cons, hy, if_true, List.length_cons]
        omega

/-- On an acyclic edge list, Kahn's algorithm with enough fuel succeeds and
emits a permutation of the remaining nodes. -/
theorem topoAux_ok (es : List (PyStr × PyStr)) (f : PyStr → Nat)
    (hf : ∀ e ∈ es, f e.1 < f e.2) :
    ∀ (fuel : Nat) (r : List PyStr), r.length ≤ fuel →
      ∃ l, topoAux es fuel r = Except.ok l ∧ l.Perm r := by
  intro fuel
  induction fuel with
  | zero =>
    intro r hr
    have hemp : r = [] := List.length_eq_zero.mp (Nat.le_zero.mp hr)
    subst hemp
    exact ⟨[], rfl, List.Perm.refl []⟩
  | succ fuel ih =>
    intro r hr
    cases r with
    | nil => exact ⟨[], rfl, List.Perm.refl []⟩
    | cons v vs =>
      have hrne : (v :: vs) ≠ [] := List.cons_ne_nil v vs
      have hzs : zeroIndeg es (v :: vs) ≠ [] := zeroIndeg_ne_nil es f hf _ hrne
      simp only [topoAux]
      rw [if_neg hzs]
      obtain ⟨z, hz⟩ := List.exists_mem_of_ne_nil _ hzs
      have hz' := hz
      rw [zeroIndeg, List.mem_filter] at hz'
      have hzr : z ∈ (v :: vs) := hz'.1
      have hzfalse : decide (z ∉ zeroIndeg es (v :: vs)) = false := by
        simp only [decide_eq_false_iff_not, not_not]
        exact hz
      have hlen : ((v :: vs).filter
          (fun x => decide (x ∉ zeroIndeg es (v :: vs)))).length < (v :: vs).length :=
        length_filter_lt _ _ z hzr hzfalse
      obtain ⟨rest, hrest, hperm⟩ := ih
        ((v :: vs).filter (fun x => decide (x ∉ zeroIndeg es (v :: vs))))
        (by omega)
      rw [hrest]
      refine ⟨zeroIndeg es (v :: vs) ++ rest, rfl, ?_⟩
      have h1 : (zeroIndeg es (v :: vs) ++ rest).Perm
          (zeroIndeg es (v :: vs) ++
            (v :: vs).filter (fun x => decide (x ∉ zeroIndeg es (v :: vs)))) :=
        List.Perm.append_left _ hperm
      have hcong : (v :: vs).filter (fun x => decide (x ∉ zeroIndeg es (v :: vs))) =
          (v :: vs).filter
            (fun x => !(fun v2 => decide (∀ e ∈ es, e.2 = v2 → e.1 ∉ (v :: vs))) x) := by
        apply List.filter_congr
        intro x hxr
        by_cases hq : (∀ e ∈ es, e.2 = x → e.1 ∉ (v :: vs))
        · have hxz : x ∈ zeroIndeg es (v :: vs) := by
            rw [zeroIndeg, List.mem_filter]
            exact ⟨hxr, by simpa using hq⟩
          have hL : decide (x ∉ zeroIndeg es (v :: vs)) = false :=
            decide_eq_false (not_not_intro hxz)
          have hR : decide (∀ e ∈ es, e.2 = x → e.1 ∉ (v :: vs)) = true :=
            decide_eq_true hq
          simp only [hL, hR]
          rfl
        · have hxz : x ∉ zeroIndeg es (v :: vs) := by
            rw [zeroIndeg, List.mem_filter]
            rintro ⟨_, hdec⟩
            exact hq (by simpa using hdec)
          have hL : decide (x ∉ zeroIndeg es (v :: vs)) = true := decide_eq_true hxz
          have hR : decide (∀ e ∈ es, e.2 = x → e.1 ∉ (v :: vs)) = false :=
            decide_eq_false hq
          simp only [hL, hR]
          rfl
      have h2 : (zeroIndeg es (v :: vs) ++
          (v :: vs).filter (fun x => decide (x ∉ zeroIndeg es (v :: vs)))).Perm (v :: vs) := by
        rw [hcong]
        rw [show zeroIndeg es (v :: vs) = (v :: vs).filter
            (fun v2 => decide (∀ e ∈ es, e.2 = v2 → e.1 ∉ (v :: vs))) from rfl]
        exact List.filter_append_perm _ _
      exact h1.trans h2

/-- On an acyclic graph, `topological_sort` succeeds with a permutation of
the graph's node list. -/
theorem topological_sort_ok (g : GraphData) (f : PyStr → Nat)
    (hf : ∀ e ∈ g.edges, f e.1 < f e.2) :
    ∃ l, topological_sort g = Except.ok l ∧ l.Perm (graphNodes g) :=
  topoAux_ok g.edges f hf (graphNodes g).length (graphNodes g) (le_refl _)

/-- Length of the emitted step list: at most 8. -/
theorem flowSteps_length (topo : List PyStr) :
    (flowSteps topo).length = min 8 topo.length := by
  rw [flowSteps, List.length_map, List.enum_length, List.length_take]

/-- Elementwise description of the emitted step list. -/
theorem flowSteps_getElem (topo : List PyStr) (i : Nat)
    (h : i < (flowSteps topo).length) (h2 : i < topo.length) :
    (flowSteps topo)[i] = flowStepAt topo.length i (topo[i]) := by
  simp only [flowSteps, List.getElem_map, List.getElem_enum, List.getElem_take]

/-- No list starting with a character other than R has
"Return result from" as a prefix. -/
theorem not_ret_pre_of_head (c : Char) (hc : c ≠ ('R' : Char)) (rest : List Char) :
    ¬ List.IsPrefix ("Return result from".data) (c :: rest) := by
  rintro ⟨t, ht⟩
  rw [show "Return result from".data = ('R' : Char) :: "eturn result from".data from rfl] at ht
  rw [List.cons_append] at ht
  injection ht with h1 _
  exact hc h1.symm

/-- Steps other than the final-position step never carry the terminal
phrasing. -/
theorem flowStepAt_not_return (total i : Nat) (nd : PyStr) (h0 : i ≠ total - 1) :
    ¬ List.IsPrefix ("Return result from".data) (flowStepAt total i nd) := by
  rw [flowStepAt]
  by_cases hi : i = 0
  · rw [if_pos hi]
    rw [show "Initialize ".data ++ nd = ('I' : Char) :: ("nitialize ".data ++ nd) from rfl]
    exact not_ret_pre_of_head ('I' : Char) (by decide) _
  · rw [if_neg hi, if_neg h0]
    rw [show "Process ".data ++ nd = ('P' : Char) :: ("rocess ".data ++ nd) from rfl]
    exact not_ret_pre_of_head ('P' : Char) (by decide) _

/-- Claim C6: for every acyclic dependency graph with duplicate-free node
list of size n, 2 ≤ n ≤ 8, and edge endpoints drawn from the node set,
`build_execution_flow` returns exactly n steps: the first step is prefixed
"Initialize ", the last step is prefixed "Return result from ", and every
other step is prefixed "Process ". -/
theorem build_execution_flow_acyclic_steps :
    ∀ g : GraphData, g.nodes.Nodup →
      (∀ e ∈ g.edges, e.1 ∈ g.nodes ∧ e.2 ∈ g.nodes) →
      EdgesAcyclic g.edges →
      2 ≤ g.nodes.length → g.nodes.length ≤ 8 →
      ∃ steps, build_execution_flow g = Except.ok steps ∧
        steps.length = g.nodes.length ∧
        ∀ i (h : i < steps.length),
          (i = 0 → List.IsPrefix ("Initialize ".data) steps[i]) ∧
          (i = steps.length - 1 → List.IsPrefix ("Return result from ".data) steps[i]) ∧
          (i ≠ 0 → i ≠ steps.length - 1 → List.IsPrefix ("Process ".data) steps[i]) := by
  intro g hnd hep hacyc h2 h8
  obtain ⟨f, hf⟩ := hacyc
  obtain ⟨l, hts, hperm⟩ := topological_sort_ok g f hf
  rw [graphNodes_eq_nodes g hnd hep] at hperm
  have hlen : l.length = g.nodes.length := hperm.length_eq
  have hne : g.nodes ≠ [] := by
    intro h
    rw [h] at h2
    simp at h2
  refine ⟨flowSteps l, ?_, ?_, ?_⟩
  · simp only [build_execution_flow]
    rw [if_neg hne, hts]
  · rw [flowSteps_length]
    omega
  · intro i h
    have hi8 : i < min 8 l.length := by rwa [flowSteps_length] at h
    have hil : i < l.length := by omega
    have hsl : (flowSteps l).length = g.nodes.length := by
      rw [flowSteps_length]
      omega
    rw [flowSteps_getElem l i h hil]
    refine ⟨?_, ?_, ?_⟩
    · intro h0
      subst h0
      rw [flowStepAt, if_pos rfl]
      exact List.prefix_append _ _
    · intro hlast
      rw [hsl] at hlast
      have hine : i ≠ 0 := by omega
      rw [flowStepAt, if_neg hine, if_pos (by omega)]
      exact List.prefix_append _ _
    · intro h0 hlast
      rw [hsl] at hlast
      rw [flowStepAt, if_neg h0, if_neg (by omega)]
      exact List.prefix_append _ _

/-- Concrete acyclic three-node graph a → b → c. -/
def gAcyclicThree : GraphData :=
  ⟨["a".data, "b".data, "c".data], [("a".data, "b".data), ("b".data, "c".data)], []⟩

/-- Claim C6 witness: the theorem applied to the concrete acyclic three-node
graph a → b → c. -/
theorem build_execution_flow_acyclic_steps_witness :
    ∃ steps, build_execution_flow gAcyclicThree = Except.ok steps ∧ steps.length = 3 := by
  obtain ⟨steps, h1, h2, _⟩ := build_execution_flow_acyclic_steps gAcyclicThree
    (by decide) (by decide)
    ⟨fun s => if s = "a".data then 0 else if s = "b".data then 1 else 2, by decide⟩
    (by decide) (by decide)
  exact ⟨steps, h1, h2⟩

/-- Claim C10: for every acyclic dependency graph with more than 8
duplicate-free nodes (edge endpoints drawn from the node set),
`build_execution_flow` returns exactly 8 steps and none of them starts with
"Return result from". -/
theorem build_execution_flow_truncated_eight :
    ∀ g : GraphData, g.nodes.Nodup →
      (∀ e ∈ g.edges, e.1 ∈ g.nodes ∧ e.2 ∈ g.nodes) →
      EdgesAcyclic g.edges →
      8 < g.nodes.length →
      ∃ steps, build_execution_flow g = Except.ok steps ∧ steps.length = 8 ∧
        ∀ s ∈ steps, ¬ List.IsPrefix ("Return result from".data) s := by
  intro g hnd hep hacyc h8
  obtain ⟨f, hf⟩ := hacyc
  obtain ⟨l, hts, hperm⟩ := topological_sort_ok g f hf
  rw [graphNodes_eq_nodes g hnd hep] at hperm
  have hlen : l.length = g.nodes.length := hperm.length_eq
  have hne : g.nodes ≠ [] := by
    intro h
    rw [h] at h8
    simp at h8
  refine ⟨flowSteps l, ?_, ?_, ?_⟩
  · simp only [build_execution_flow]
    rw [if_neg hne, hts]
  · rw [flowSteps_length]
    omega
  · intro s hs
    obtain ⟨i, hi, rfl⟩ := List.mem_iff_getElem.mp hs
    have hi8 : i < min 8 l.length := by rwa [flowSteps_length] at hi
    have hil : i < l.length := by omega
    rw [flowSteps_getElem l i hi hil]
    exact flowStepAt_not_return l.length i _ (by omega)

/-- Concrete nine-node edgeless graph. -/
def gNine : GraphData :=
  ⟨["n0".data, "n1".data, "n2".data, "n3".data, "n4".data, "n5".data,
    "n6".data, "n7".data, "n8".data], [], []⟩

/-- Claim C10 witness: the theorem applied to the concrete nine-node
edgeless graph. -/
theorem build_execution_flow_truncated_eight_witness :
    ∃ steps, build_execution_flow gNine = Except.ok steps ∧ steps.length = 8 := by
  obtain ⟨steps, h1, h2, _⟩ := build_execution_flow_truncated_eight gNine
    (by decide) (by decide) ⟨fun _ => 0, by decide⟩ (by decide)
  exact ⟨steps, h1, h2⟩

/-- Claim C7: with an empty entity set, `find_dependencies` returns the
empty sequence for every chunk list, and on the resulting empty graph
`build_execution_flow`, `extract_key_components` and
`extract_key_functions` return their fixed fallback literals. -/
theorem empty_entities_fallback_literals :
    (∀ chunks, find_dependencies chunks [] = []) ∧
    (∀ chunks, build_execution_flow
        (structure_graph_data [] (find_dependencies chunks [])) =
      Except.ok ["System initializes".data, "Processes input".data,
        "Returns output".data]) ∧
    (∀ chunks, extract_key_components
        (structure_graph_data [] (find_dependencies chunks [])) =
      ["core system".data, "input handler".data, "output formatter".data]) ∧
    (∀ chunks, extract_key_functions
        (structure_graph_data [] (find_dependencies chunks [])) =
      ["main".data, "init".data, "run".data]) := by
  have hfd : ∀ chunks, find_dependencies chunks ([] : List PyStr) = [] := by
    intro chunks
    induction chunks with
    | nil => rfl
    | cons c cs ih =>
      simp only [find_dependencies] at ih ⊢
      rw [List.flatMap_cons, ih]
      rfl
  refine ⟨hfd, ?_, ?_, ?_⟩ <;> intro chunks <;> rw [hfd chunks] <;> rfl

/-- Claim C9: for every chunk list and entity set, the graph dictionary
produced by the Structure Extractor's process step has every edge endpoint
in its node list, and no edge joins an entity to itself. -/
theorem structure_graph_edges_wellformed :
    ∀ (chunks : List (List Char)) (entities : List PyStr) (e : PyStr × PyStr),
      e ∈ (structure_graph_data entities (find_dependencies chunks entities)).edges →
      e.1 ∈ (structure_graph_data entities (find_dependencies chunks entities)).nodes ∧
      e.2 ∈ (structure_graph_data entities (find_dependencies chunks entities)).nodes ∧
      e.1 ≠ e.2 := by
  intro chunks entities e he
  simp only [structure_graph_data] at he ⊢
  rw [graphEdges, List.mem_flatMap] at he
  obtain ⟨u, hu, he2⟩ := he
  obtain ⟨v, hv, rfl⟩ := List.mem_map.mp he2
  rw [mem_pyDedup] at hv
  obtain ⟨d, hd, rfl⟩ := List.mem_map.mp hv
  have hdf : d ∈ find_dependencies chunks entities := (List.mem_filter.mp hd).1
  have hdu : d.1 = u := by
    have := (List.mem_filter.mp hd).2
    simpa using this
  refine ⟨hu, ?_, ?_⟩
  · rw [mem_pyDedup, List.mem_append]
    right
    rw [List.mem_flatMap]
    exact ⟨d, hdf, by simp⟩
  · rw [← hdu]
    have hp : d.1 ≠ d.2 := by
      simp only [find_dependencies] at hdf
      rw [List.mem_flatMap] at hdf
      obtain ⟨c, _, hdp⟩ := hdf
      revert hdp
      generalize (entities.filter fun e => listContains (pyLower e) (pyLower c)) = l
      intro hdp
      induction l with
      | nil => exact absurd hdp (List.not_mem_nil d)
      | cons x xs ih =>
        simp only [pairsOf] at hdp
        rcases List.mem_append.mp hdp with hp1 | hp2
        · obtain ⟨y, hy, rfl⟩ := List.mem_map.mp hp1
          have hyx := (List.mem_filter.mp hy).2
          simp only [decide_eq_true_eq] at hyx
          exact fun hcontr => hyx hcontr.symm
        · exact ih hp2
    exact hp

/-- Claim C9 witness: the theorem applied to one chunk "a b" and the entity
list [a, b], whose produced graph has the single edge (a, b). -/
theorem structure_graph_edges_wellformed_witness :
    "a".data ∈ (structure_graph_data ["a".data, "b".data]
      (find_dependencies [("a b".data)] ["a".data, "b".data])).nodes ∧
    "b".data ∈ (structure_graph_data ["a".data, "b".data]
      (find_dependencies [("a b".data)] ["a".data, "b".data])).nodes ∧
    ("a".data : PyStr) ≠ "b".data := by
  have h := structure_graph_edges_wellformed [("a b".data)] ["a".data, "b".data]
    ("a".data, "b".data) (by decide)
  exact ⟨h.1, h.2.1, h.2.2⟩
